import Mathlib

/-!
Verification of the chainstate-UTXO decoding and dust-classification core of
`bitcoin_tools` (`bitcoin_tools/analysis/leveldb/utils.py`).

Byte strings are modelled as `List Nat`, one element per byte.  The Python
code works on lowercase hex strings (two characters per byte), so every
Python offset/length of `2*k` characters corresponds to `k` bytes here.
Machine integers are modelled as `Nat`/`Int`; fallible code returns
`Except`/`Option`.
-/

/-- Error kinds of the decoding functions: `truncatedVarint` models the
`ValueError` Python raises when a varint read runs past the end of the input
(`int("", 16)`), `malformedRecord` models the `AssertionError` of the final
`assert len(utxo) == offset` in `decode_utxo`. -/
inductive DecodeErr where
  | truncatedVarint
  | malformedRecord
deriving DecidableEq

/-- `b128_encode` inner loop (utils.py:46-62).  The Python loop appends the low
7 bits of `n`, ORs `0x80` into every appended byte except the first one,
replaces `n` by `(n >> 7) - 1` while `n > 0x7F`, and finally reverses the byte
list.  Here the final reversal is folded into the append order of the
recursion, so `cont` says whether the byte emitted for the current `n` is a
continuation byte (`cont = false` exactly for the outermost call, i.e. the
first byte the Python loop appends, which ends up last after the reversal). -/
def b128_encode_aux (n : Nat) (cont : Bool) : List Nat :=
  let b := n % 128 + if cont then 128 else 0
  if n ≤ 127 then [b]
  else b128_encode_aux (n / 128 - 1) true ++ [b]
termination_by n
decreasing_by simp_wf; omega

/-- `b128_encode` (utils.py:46-62): MSB base-128 varint encoding, returned as
a byte list (the Python function returns the same bytes as a hex string). -/
def b128_encode (n : Nat) : List Nat :=
  b128_encode_aux n false

/-- `b128_decode` loop (utils.py:87-96): accumulate 7 bits per byte, adding 1
after every byte whose continuation bit `0x80` is set; the first byte with the
bit clear ends the loop.  Running out of bytes models the Python `ValueError`
on `int("", 16)`, hence the `Option`. -/
def b128_decode_aux (acc : Nat) : List Nat → Option Nat
  | [] => none
  | d :: rest =>
    let n := acc <<< 7 ||| (d &&& 0x7F)
    if d &&& 0x80 ≠ 0 then b128_decode_aux (n + 1) rest else some n

/-- `b128_decode` (utils.py:87-96). -/
def b128_decode (data : List Nat) : Option Nat :=
  b128_decode_aux 0 data

/-- The accumulator value reached by `b128_decode_aux` after consuming a run
of continuation bytes `bs` starting from `acc` (including the `+ 1` applied
after each such byte). -/
def b128_acc (acc : Nat) (bs : List Nat) : Nat :=
  bs.foldl (fun a c => a * 128 + c % 128 + 1) acc

/-- A byte string is well-terminated when it is nonempty, every byte before
the last is a continuation byte (`0x80` set, i.e. in `[128, 256)`), and the
final byte has the continuation bit clear. -/
def wellTerminated (l : List Nat) : Prop :=
  l ≠ [] ∧ (∀ b ∈ l.dropLast, 128 ≤ b ∧ b < 256) ∧ l.getLastD 0 < 128

instance (l : List Nat) : Decidable (wellTerminated l) := by
  unfold wellTerminated; infer_instance

theorem mul_pow_lor_eq_add (k a b : Nat) (h : b < 2 ^ k) :
    a * 2 ^ k ||| b = a * 2 ^ k + b := by
  induction k generalizing a b with
  | zero =>
    interval_cases b
    simp
  | succ k ih =>
    have hb : b = Nat.bit b.bodd b.div2 := (Nat.bit_decomp b).symm
    have ha : a * 2 ^ (k + 1) = Nat.bit false (a * 2 ^ k) := by
      simp [Nat.bit, Nat.pow_succ]; ring
    rw [hb, ha, Nat.lor_bit]
    have hlt : b.div2 < 2 ^ k := by
      rw [Nat.div2_val]
      omega
    rw [ih a b.div2 hlt]
    simp [Nat.bit]
    have := Nat.bit_decomp b
    simp [Nat.bit] at this
    cases hx : b.bodd <;> simp [hx] at this ⊢ <;> omega

theorem shift7_lor_and (acc d : Nat) :
    acc <<< 7 ||| (d &&& 127) = acc * 128 + d % 128 := by
  have h1 : d &&& 127 = d % 128 := by
    have := Nat.and_pow_two_sub_one_eq_mod d 7
    norm_num at this
    exact this
  have h2 : acc <<< 7 = acc * 128 := by
    have := Nat.shiftLeft_eq acc 7
    norm_num at this
    exact this
  rw [h1, h2]
  have := mul_pow_lor_eq_add 7 acc (d % 128) (by omega)
  norm_num at this
  exact this

theorem and128_ne_zero_of_cont (c : Nat) (h1 : 128 ≤ c) (h2 : c < 256) :
    c &&& 128 ≠ 0 := by
  have h : c &&& 128 = (c.testBit 7).toNat * 128 := by
    have := Nat.and_two_pow c 7
    norm_num at this
    exact this
  have ht : c.testBit 7 = true := by
    rw [Nat.testBit_to_div_mod]
    have h7 : (2 : Nat) ^ 7 = 128 := by norm_num
    rw [h7]
    have hc : c / 128 = 1 := by omega
    simp [hc]
  rw [h, ht]
  simp

theorem and128_eq_zero_of_last (b : Nat) (h : b < 128) : b &&& 128 = 0 := by
  have heq : b &&& 128 = (b.testBit 7).toNat * 128 := by
    have := Nat.and_two_pow b 7
    norm_num at this
    exact this
  have ht : b.testBit 7 = false := by
    rw [Nat.testBit_to_div_mod]
    have h7 : (2 : Nat) ^ 7 = 128 := by norm_num
    rw [h7]
    have hb : b / 128 = 0 := by omega
    simp [hb]
  rw [heq, ht]
  simp

/-- Running the decode loop over a run of continuation bytes followed by a
terminating byte returns the accumulated value and ignores whatever follows
the terminating byte. -/
theorem b128_decode_aux_cont_append (bs : List Nat) :
    ∀ acc b rest, (∀ c ∈ bs, 128 ≤ c ∧ c < 256) → b < 128 →
    b128_decode_aux acc (bs ++ b :: rest) = some (b128_acc acc bs * 128 + b) := by
  induction bs with
  | nil =>
    intro acc b rest _ hb
    simp only [List.nil_append, b128_decode_aux, b128_acc, List.foldl_nil]
    rw [if_neg (by simp [and128_eq_zero_of_last b hb])]
    rw [shift7_lor_and]
    rw [Nat.mod_eq_of_lt hb]
  | cons c cs ih =>
    intro acc b rest hrange hb
    have hc := hrange c (by simp)
    simp only [List.cons_append, b128_decode_aux]
    rw [if_pos (by simp [and128_ne_zero_of_cont c hc.1 hc.2])]
    rw [shift7_lor_and]
    have : b128_acc acc (c :: cs) = b128_acc (acc * 128 + c % 128 + 1) cs := by
      simp [b128_acc]
    rw [this]
    exact ih (acc * 128 + c % 128 + 1) b rest (fun x hx => hrange x (by simp [hx])) hb

/-- Every byte of a continuation-mode encoding lies in `[128, 256)`. -/
theorem b128_encode_aux_cont_range (n : Nat) :
    ∀ b ∈ b128_encode_aux n true, 128 ≤ b ∧ b < 256 := by
  induction n using Nat.strong_induction_on with
  | _ n ih =>
    rw [b128_encode_aux]
    by_cases h : n ≤ 127
    · rw [if_pos h]
      intro b hb
      simp at hb
      omega
    · rw [if_neg h]
      intro b hb
      simp at hb
      rcases hb with hb | hb
      · exact ih (n / 128 - 1) (by omega) b hb
      · omega

/-- Shape of a continuation-mode encoding for a small value. -/
theorem b128_encode_aux_true_low (m : Nat) (h : m ≤ 127) :
    b128_encode_aux m true = [m + 128] := by
  rw [b128_encode_aux]
  simp [h]
  omega

/-- Shape of a continuation-mode encoding for a large value. -/
theorem b128_encode_aux_true_high (m : Nat) (h : ¬ m ≤ 127) :
    b128_encode_aux m true = b128_encode_aux (m / 128 - 1) true ++ [m % 128 + 128] := by
  conv_lhs => rw [b128_encode_aux]
  simp [h]

/-- Shape of the encoding of a small value: a single byte. -/
theorem b128_encode_low (n : Nat) (h : n ≤ 127) : b128_encode n = [n] := by
  rw [b128_encode, b128_encode_aux]
  simp [h]
  omega

/-- Shape of the encoding of a large value: a continuation-mode prefix
followed by the low 7 bits. -/
theorem b128_encode_high (n : Nat) (h : ¬ n ≤ 127) :
    b128_encode n = b128_encode_aux (n / 128 - 1) true ++ [n % 128] := by
  rw [b128_encode, b128_encode_aux]
  simp [h]

/-- The accumulator reached after consuming a continuation-mode encoding of
`m` starting from `acc`. -/
theorem b128_acc_encode_cont (m : Nat) :
    ∀ acc, b128_acc acc (b128_encode_aux m true) =
      acc * 128 ^ (b128_encode_aux m true).length + m + 1 := by
  induction m using Nat.strong_induction_on with
  | _ m ih =>
    intro acc
    by_cases h : m ≤ 127
    · rw [b128_encode_aux_true_low m h]
      simp [b128_acc]
      omega
    · rw [b128_encode_aux_true_high m h]
      rw [b128_acc, List.foldl_append]
      have hrec := ih (m / 128 - 1) (by omega) acc
      rw [b128_acc] at hrec
      rw [hrec]
      simp only [List.foldl_cons, List.foldl_nil, List.length_append, List.length_cons,
        List.length_nil]
      have hmod : (m % 128 + 128) % 128 = m % 128 := by omega
      rw [hmod, pow_succ]
      have hd := Nat.div_add_mod m 128
      have h1 : m / 128 - 1 + 1 = m / 128 := by omega
      set L := (b128_encode_aux (m / 128 - 1) true).length with hL
      ring_nf
      have hexp : acc * 128 ^ L * 128 = acc * (128 ^ L * 128) := by ring
      omega

/-- Decoding an encoding, with arbitrary trailing bytes, recovers the encoded
value: the decode loop stops at the first byte with the continuation bit
clear, which is the final byte of the encoding. -/
theorem b128_decode_encode_append (n : Nat) (rest : List Nat) :
    b128_decode (b128_encode n ++ rest) = some n := by
  unfold b128_decode
  by_cases h : n ≤ 127
  · rw [b128_encode_low n h]
    have := b128_decode_aux_cont_append [] 0 n rest (by simp) (by omega)
    simp only [List.nil_append] at this
    simp only [List.cons_append, List.nil_append]
    rw [this]
    simp [b128_acc]
  · rw [b128_encode_high n h]
    simp only [List.append_assoc, List.cons_append, List.nil_append]
    rw [b128_decode_aux_cont_append (b128_encode_aux (n / 128 - 1) true) 0
      (n % 128) rest (b128_encode_aux_cont_range (n / 128 - 1)) (by omega)]
    rw [b128_acc_encode_cont (n / 128 - 1) 0]
    have := Nat.div_add_mod n 128
    congr 1
    omega

theorem getLastD_append_singleton (l : List Nat) (b : Nat) :
    (l ++ [b]).getLastD 0 = b := by
  simp [List.getLastD_eq_getLast?, List.getLast?_concat]

/-- A run of continuation bytes re-encodes to itself: `b128_encode_aux` in
continuation mode is a left inverse of the accumulator map on byte runs whose
bytes all lie in `[128, 256)`. -/
theorem b128_encode_aux_acc_cont (cs : List Nat) :
    ∀ c, (∀ x ∈ cs, 128 ≤ x ∧ x < 256) → 128 ≤ c → c < 256 →
    b128_encode_aux (b128_acc 0 cs * 128 + c % 128) true = cs ++ [c] := by
  induction cs using List.reverseRecOn with
  | nil =>
    intro c _ hc1 hc2
    have : b128_acc 0 [] = 0 := by simp [b128_acc]
    rw [this]
    rw [b128_encode_aux_true_low (0 * 128 + c % 128) (by omega)]
    simp
    omega
  | append_singleton ds d ih =>
    intro c hrange hc1 hc2
    have hd := hrange d (by simp)
    have hA : b128_acc 0 (ds ++ [d]) = b128_acc 0 ds * 128 + d % 128 + 1 := by
      simp [b128_acc, List.foldl_append]
    have hbig : ¬ (b128_acc 0 (ds ++ [d]) * 128 + c % 128 ≤ 127) := by omega
    rw [b128_encode_aux_true_high _ hbig]
    have hdiv : (b128_acc 0 (ds ++ [d]) * 128 + c % 128) / 128 - 1 =
        b128_acc 0 ds * 128 + d % 128 := by
      rw [hA]
      omega
    have hmod : (b128_acc 0 (ds ++ [d]) * 128 + c % 128) % 128 = c % 128 := by
      omega
    rw [hdiv, hmod]
    rw [ih d (fun x hx => hrange x (by simp [hx])) hd.1 hd.2]
    have : c % 128 + 128 = c := by omega
    rw [this]

/-- Any well-terminated byte string decoding to `n` is the canonical encoding
of `n`: the encoding map is onto the well-terminated strings. -/
theorem b128_decode_unique (l : List Nat) (n : Nat) (hwt : wellTerminated l)
    (hdec : b128_decode l = some n) : l = b128_encode n := by
  obtain ⟨hne, hrange, hlast⟩ := hwt
  obtain ⟨bs, b, hl⟩ : ∃ bs b, l = bs ++ [b] := by
    rcases List.eq_nil_or_concat' l with h | ⟨bs, b, h⟩
    · exact absurd h hne
    · exact ⟨bs, b, h⟩
  subst hl
  have hbs : ∀ x ∈ bs, 128 ≤ x ∧ x < 256 := by
    intro x hx
    exact hrange x (by simp [List.dropLast_concat, hx])
  have hb : b < 128 := by
    rw [getLastD_append_singleton] at hlast
    exact hlast
  have hdec' : b128_decode (bs ++ b :: []) = some n := by simpa using hdec
  rw [b128_decode, b128_decode_aux_cont_append bs 0 b [] hbs hb] at hdec'
  have hn : n = b128_acc 0 bs * 128 + b := by
    injection hdec' with h
    omega
  rcases List.eq_nil_or_concat' bs with hbs0 | ⟨cs, c, hbs1⟩
  · subst hbs0
    have : b128_acc 0 [] = 0 := by simp [b128_acc]
    rw [this] at hn
    rw [b128_encode_low n (by omega)]
    simp
    omega
  · subst hbs1
    have hc := hbs c (by simp)
    have hA : b128_acc 0 (cs ++ [c]) = b128_acc 0 cs * 128 + c % 128 + 1 := by
      simp [b128_acc, List.foldl_append]
    have hbig : ¬ n ≤ 127 := by omega
    rw [b128_encode_high n hbig]
    have hmod : n % 128 = b := by omega
    have hdiv : n / 128 - 1 = b128_acc 0 cs * 128 + c % 128 := by
      rw [hn, hA]
      omega
    rw [hmod, hdiv]
    rw [b128_encode_aux_acc_cont cs c (fun x hx => hbs x (by simp [hx])) hc.1 hc.2]

/-- C1: Varint round-trip: decoding the base-128 encoding of any non-negative
integer `n` returns exactly `n`. -/
theorem varint_round_trip (n : Nat) : b128_decode (b128_encode n) = some n := by
  have := b128_decode_encode_append n []
  simpa using this

/-- C10: `b128_decode` stops at the first byte with the continuation bit clear
and silently ignores all trailing bytes: decoding `b128_encode n ++ s` yields
`n` for every trailing byte string `s`. -/
theorem varint_decode_ignores_trailing (n : Nat) (s : List Nat) :
    b128_decode (b128_encode n ++ s) = some n :=
  b128_decode_encode_append n s

/-- C7: Varint canonicity: every byte of `b128_encode n` before the last has
the continuation bit `0x80` set, the last byte has it clear, and `b128_encode n`
is the unique well-terminated byte string decoding to `n`. -/
theorem varint_canonicity (n : Nat) :
    (∀ b ∈ (b128_encode n).dropLast, 128 ≤ b ∧ b < 256) ∧
    (b128_encode n).getLastD 0 < 128 ∧
    (∀ l, wellTerminated l → b128_decode l = some n → l = b128_encode n) := by
  refine ⟨?_, ?_, ?_⟩
  · by_cases h : n ≤ 127
    · rw [b128_encode_low n h]
      simp
    · rw [b128_encode_high n h]
      rw [List.dropLast_concat]
      exact b128_encode_aux_cont_range (n / 128 - 1)
  · by_cases h : n ≤ 127
    · rw [b128_encode_low n h]
      simp
      omega
    · rw [b128_encode_high n h]
      rw [getLastD_append_singleton]
      omega
  · intro l hwt hdec
    exact b128_decode_unique l n hwt hdec

/-- Witness for C7: the two-byte string `[0x80, 0x7F]` is well-terminated and
decodes to 255 (the documented example `255 = 0x80 0x7F`), so by canonicity it
is `b128_encode 255`. -/
theorem varint_canonicity_witness : [128, 127] = b128_encode 255 :=
  (varint_canonicity 255).2.2 [128, 127] (by decide) (by decide)

/-- Modelled from the spec: `NSPECIALSCRIPTS` is imported from the package
`__init__`, which is not among the sources; the spec (§3, Glossary) fixes it
as the offset subtracted from raw `out_type` tags ≥ 6 to recover the literal
script length, the six special types being 0-5, so `NSPECIALSCRIPTS = 6`. -/
def NSPECIALSCRIPTS : Nat := 6

/-- One decoded output (`outs.append({...})` in `decode_utxo`,
utils.py:223): position among all outputs of the transaction, decompressed
satoshi amount, output type tag, and script payload bytes. -/
structure OutRecord where
  index : Nat
  amount : Nat
  out_type : Nat
  data : List Nat
deriving DecidableEq

/-- `check_multisig` (utils.py:349-371): the script is multisig when its
first byte is in the accepted opcode range (`range(81, 83)` when standard,
`range(84, 101)` otherwise), its second byte is a 33- or 65-byte key push
(hex `"21"`/`"41"`), and its last byte is `0xae` (OP_CHECKMULTISIG).
`int(script[:2], 16)` raises `ValueError` on an empty script, hence the
`Option`. -/
def check_multisig (script : List Nat) (std : Bool := true) : Option Bool :=
  match script with
  | [] => none
  | b0 :: rest =>
    let inRange := if std then decide (81 ≤ b0 ∧ b0 < 83) else decide (84 ≤ b0 ∧ b0 < 101)
    let keyPush := match rest.head? with
      | some b1 => decide (b1 = 33 ∨ b1 = 65)
      | none => false
    let opCheckMultisig := decide ((b0 :: rest).getLastD 0 = 174)
    some (inRange && keyPush && opCheckMultisig)

/-- `get_min_input_size` (utils.py:374-452).  `none` models the `ValueError`
Python raises when the multisig branch is reached with an empty script;
otherwise the result is `fixed_size + scriptSig_len + scriptSig` and may be
non-positive (the bodies of the excluded branches set `scriptSig` to
`-fixed_size` resp. `-fixed_size - 1` with `scriptSig_len = 0`).  The
multisig length prefix is `int(ceil(scriptSig / float(256)))`; 256 is a power
of two, the float division is exact, and the value equals
`(scriptSig + 255) / 256` in integer arithmetic. -/
def get_min_input_size (out : OutRecord) (height : Nat) (count_p2sh : Bool) : Option Int :=
  let out_type := out.out_type
  let script := out.data
  let prev_tx_id : Int := 32
  let prev_out_index : Int := 4
  let nSequence : Int := 4
  let fixed_size : Int := prev_tx_id + prev_out_index + nSequence
  if out_type = 0 then
    let scriptSig : Int := if height < 173480 then 138 else 106
    some (fixed_size + (1 + scriptSig))
  else if out_type = 1 then
    if count_p2sh then some (fixed_size + (1 + 1))
    else some (fixed_size + (0 + (- fixed_size)))
  else if out_type = 2 ∨ out_type = 3 ∨ out_type = 4 ∨ out_type = 5 then
    some (fixed_size + (1 + 72))
  else
    match check_multisig script true with
    | none => none
    | some true =>
      let req_sigs : Nat := script.headD 0 - 80
      let scriptSig : Nat := 1 + req_sigs * 72
      let scriptSig_len : Nat := (scriptSig + 255) / 256
      some (fixed_size + ((scriptSig_len : Int) + (scriptSig : Int)))
    | some false => some (fixed_size + (0 + (- fixed_size - 1)))

/-- C4: A P2PKH output (`out_type = 0`) is priced as the 40-byte fixed
overhead plus a 1-byte scriptSig length prefix plus a 138-byte scriptSig
(uncompressed key) when `height < 173480`, and plus a 106-byte scriptSig
(compressed key) when `height ≥ 173480`; in particular height 173479 gives
179 and height 173480 gives 147. -/
theorem p2pkh_height_threshold (out : OutRecord) (height : Nat) (cp : Bool)
    (h : out.out_type = 0) :
    get_min_input_size out height cp =
      some (40 + (1 + if height < 173480 then (138 : Int) else 106)) ∧
    get_min_input_size out 173479 cp = some 179 ∧
    get_min_input_size out 173480 cp = some 147 := by
  refine ⟨?_, ?_, ?_⟩ <;> simp only [get_min_input_size, h, if_pos rfl] <;> norm_num

/-- Witness for C4 at a concrete P2PKH output and the two boundary heights. -/
theorem p2pkh_height_threshold_witness :
    get_min_input_size ⟨0, 5000, 0, List.replicate 20 7⟩ 173479 false = some 179 ∧
    get_min_input_size ⟨0, 5000, 0, List.replicate 20 7⟩ 173480 false = some 147 :=
  ⟨(p2pkh_height_threshold ⟨0, 5000, 0, List.replicate 20 7⟩ 0 false rfl).2.1,
   (p2pkh_height_threshold ⟨0, 5000, 0, List.replicate 20 7⟩ 0 false rfl).2.2⟩

/-- C2 counterexample: a P2SH output (`out_type = 1`) with `count_p2sh =
false` makes `get_min_input_size` return 0 — not the negative sentinel `-40`
the claim states (the body sets `scriptSig = -fixed_size`, but the function
returns `fixed_size + scriptSig_len + scriptSig`, which cancels to 0). -/
theorem sentinel_counterexample :
    get_min_input_size ⟨0, 0, 1, []⟩ 500000 false = some 0 ∧
    (0 : Int) ≠ -40 ∧ ¬ ((0 : Int) < 0) := by
  refine ⟨by decide, by norm_num, by norm_num⟩

/-- C2 amended: for every P2SH output with `count_p2sh = false` the function
returns the sentinel 0 (the internal `scriptSig = -fixed_size` cancels the
fixed overhead), and for every output of another non-special type whose
script fails standard multisig detection it returns the sentinel `-1`
(internally `-(fixed_size + 1)`); the two sentinels are distinct, only the
second is negative, and both are smaller than any genuine size. -/
theorem sentinel_values (out : OutRecord) (height : Nat) (cp : Bool) :
    (out.out_type = 1 → get_min_input_size out height false = some 0) ∧
    (out.out_type ≠ 0 → out.out_type ≠ 1 → out.out_type ≠ 2 → out.out_type ≠ 3 →
      out.out_type ≠ 4 → out.out_type ≠ 5 →
      check_multisig out.data true = some false →
      get_min_input_size out height cp = some (-1)) ∧
    (0 : Int) ≠ -1 ∧ ¬ ((0 : Int) < 0) ∧ (-1 : Int) < 0 := by
  refine ⟨?_, ?_, by norm_num, by norm_num, by norm_num⟩
  · intro h1
    simp only [get_min_input_size, h1]
    norm_num
  · intro h0 h1 h2 h3 h4 h5 hms
    simp only [get_min_input_size, h0, h1, h2, h3, h4, h5, hms]
    norm_num

/-- Witness for C2 (amended) at a concrete P2SH output and a concrete
non-multisig script of `other` type. -/
theorem sentinel_values_witness :
    get_min_input_size ⟨0, 0, 1, []⟩ 100 false = some 0 ∧
    get_min_input_size ⟨0, 0, 77, [0]⟩ 100 false = some (-1) :=
  ⟨(sentinel_values ⟨0, 0, 1, []⟩ 100 false).1 rfl,
   (sentinel_values ⟨0, 0, 77, [0]⟩ 100 false).2.1 (by decide) (by decide) (by decide)
     (by decide) (by decide) (by decide) (by decide)⟩

/-- A concrete standard 1-of-2 bare multisig script of the spec's shape
`"5121...21...52ae"`: OP_1, a 33-byte key push, a second 33-byte key push,
OP_2, OP_CHECKMULTISIG. -/
def multisigScript : List Nat :=
  81 :: 33 :: (List.replicate 33 2 ++ 33 :: (List.replicate 33 3 ++ [82, 174]))

/-- C6 counterexample: the script shape `"5121...21...52ae"` begins with
OP_1 (0x51), so the classifier computes `req_sigs = 0x51 - 0x50 = 1`, not 2:
the returned size is `40 + 1 + (1 + 1*72) = 114`, not the `186` that
`required_signatures = 2` would give. -/
theorem multisig_req_sigs_counterexample :
    check_multisig multisigScript true = some true ∧
    get_min_input_size ⟨0, 0, 77, multisigScript⟩ 0 false = some 114 ∧
    (114 : Int) ≠ 40 + (1 + (1 + 2 * 72)) := by
  refine ⟨by decide, by decide, by norm_num⟩

set_option maxRecDepth 4000 in
/-- C6 amended: every script of shape `0x51 0x21 ... 0x52 0xae` is accepted
by `check_multisig` in standard mode; the classifier computes
`required_signatures = first byte - 0x50 = 1` for it, returning
`40 + 1 + (1 + 1*72) = 114`; removing the trailing OP_CHECKMULTISIG byte
makes `check_multisig` return `false`. -/
theorem multisig_detection (mid : List Nat) (i amt t height : Nat) (cp : Bool)
    (h0 : t ≠ 0) (h1 : t ≠ 1) (h2 : t ≠ 2) (h3 : t ≠ 3) (h4 : t ≠ 4) (h5 : t ≠ 5) :
    check_multisig (81 :: 33 :: (mid ++ [82, 174])) true = some true ∧
    get_min_input_size ⟨i, amt, t, 81 :: 33 :: (mid ++ [82, 174])⟩ height cp =
      some (40 + (1 + (1 + 1 * 72))) ∧
    check_multisig (81 :: 33 :: (mid ++ [82])) true = some false := by
  have hsplit : 81 :: 33 :: (mid ++ [82, 174]) = (81 :: 33 :: (mid ++ [82])) ++ [174] := by
    simp
  have hlast : (81 :: 33 :: (mid ++ [82, 174])).getLastD 0 = 174 := by
    rw [hsplit, getLastD_append_singleton]
  have hlast2 : (81 :: 33 :: (mid ++ [82])).getLastD 0 = 82 := by
    have : 81 :: 33 :: (mid ++ [82]) = (81 :: 33 :: mid) ++ [82] := by simp
    rw [this, getLastD_append_singleton]
  have hms : check_multisig (81 :: 33 :: (mid ++ [82, 174])) true = some true := by
    simp only [check_multisig, List.head?_cons, hlast]
    norm_num
  have hms2 : check_multisig (81 :: 33 :: (mid ++ [82])) true = some false := by
    simp only [check_multisig, List.head?_cons, hlast2]
    norm_num
  refine ⟨hms, ?_, hms2⟩
  simp only [get_min_input_size, h0, h1, h2, h3, h4, h5, hms]
  norm_num

/-- Witness for C6 (amended): the concrete 71-byte script with `mid` taken as
a full second key push and `out_type = 77`. -/
theorem multisig_detection_witness :
    check_multisig multisigScript true = some true ∧
    get_min_input_size ⟨3, 1000, 77, multisigScript⟩ 42 true =
      some (40 + (1 + (1 + 1 * 72))) := by
  have h := multisig_detection (List.replicate 33 2 ++ 33 :: List.replicate 33 3)
    3 1000 77 42 true (by decide) (by decide) (by decide) (by decide) (by decide) (by decide)
  have hs : multisigScript =
      81 :: 33 :: ((List.replicate 33 2 ++ 33 :: List.replicate 33 3) ++ [82, 174]) := by
    decide
  rw [hs]
  exact ⟨h.1, h.2.1⟩

/-- `parse_b128` loop (utils.py:99-120) acting on the byte suffix that starts
at the current offset: take bytes while the continuation bit `0x80` is set,
including the first byte with the bit clear.  Running past the end of the
input models Python's `ValueError` on `int("", 16)`. -/
def parse_b128_list : List Nat → Except DecodeErr (List Nat)
  | [] => .error .truncatedVarint
  | d :: rest =>
    if d &&& 0x80 = 0 then .ok [d]
    else match parse_b128_list rest with
      | .ok ds => .ok (d :: ds)
      | .error e => .error e

/-- `parse_b128` (utils.py:99-120): parse one varint of `utxo` starting at
byte offset `offset` (the Python offsets count hex characters, two per
byte), returning the varint's bytes and the offset of the byte right after
it. -/
def parse_b128 (utxo : List Nat) (offset : Nat) : Except DecodeErr (List Nat × Nat) :=
  match parse_b128_list (utxo.drop offset) with
  | .ok ds => .ok (ds, offset + ds.length)
  | .error e => .error e

/-- `parse_b128` immediately followed by `b128_decode`, the combination
`decode_utxo` uses for every varint field. -/
def read_varint (utxo : List Nat) (offset : Nat) : Except DecodeErr (Nat × Nat) :=
  match parse_b128 utxo offset with
  | .ok (ds, o) =>
    match b128_decode ds with
    | some n => .ok (n, o)
    | none => .error .truncatedVarint
  | .error e => .error e

/-- The bitvector-reading loop of `decode_utxo` (utils.py:175-182) on a byte
suffix: consume bytes until `n` non-zero bytes have been seen; a zero byte
is kept but does not decrement `n`.  When the input is exhausted Python
keeps reading empty slices, which compare `!= "00"` and therefore also
decrement `n` while advancing the offset, contributing no bytes.  Returns
the bytes read and the number of byte positions consumed. -/
def parse_bv_go : List Nat → Nat → List Nat × Nat
  | _, 0 => ([], 0)
  | [], n + 1 => ([], n + 1)
  | b :: rest, n + 1 =>
    let m := if b = 0 then n + 1 else n
    let p := parse_bv_go rest m
    (b :: p.1, p.2 + 1)

/-- The bitvector-reading loop of `decode_utxo` at offset `offset` of `utxo`,
returning the bitvector bytes and the offset after the loop. -/
def parse_bitvector (utxo : List Nat) (offset n : Nat) : List Nat × Nat :=
  let p := parse_bv_go (utxo.drop offset) n
  (p.1, offset + p.2)

/-- Modelled from the spec: `change_endianness` lives in
`bitcoin_tools/utils.py`, which is not among the sources; the spec (§4.3
step 4) describes it as reversing the stored little-endian byte order of the
bitvector. -/
def change_endianness (l : List Nat) : List Nat := l.reverse

/-- `int(hexstring, 16)` on a byte list: the big-endian base-256 value. -/
def bytesToNatBE (l : List Nat) : Nat := l.foldl (fun a b => a * 256 + b) 0

/-- Binary digits of `val`, least significant digit first — the string
`format(val, 'b')` reversed, except that the single `'0'` digit Python prints
for zero is dropped (it contributes no `'1'` position).  `fuel` is a
structural bound on the number of halvings; any `fuel ≥ val` is enough. -/
def natBitsAux : Nat → Nat → List Bool
  | _, 0 => []
  | val, fuel + 1 =>
    if val = 0 then [] else decide (val % 2 = 1) :: natBitsAux (val / 2) fuel

/-- Binary digits of `v`, least significant first. -/
def natBits (v : Nat) : List Bool := natBitsAux v v

/-- Positions of the `'1'` characters of `format(v, 'b')[::-1]`
(utils.py:186-192), i.e. the set-bit positions of `v` counted from the least
significant bit, in ascending order. -/
def setBitIndices (v : Nat) : List Nat :=
  ((natBits v).enum.filter (fun p => p.2)).map (fun p => p.1)

/-- The `extended_vout` computation of `decode_utxo` (utils.py:184-192): the
bitvector bytes are reversed from little-endian storage, reinterpreted as a
big-endian bit string, and every set bit position `i` yields the unspent
output index `i + 2`. -/
def bitvector_vout (bitvector : List Nat) : List Nat :=
  (setBitIndices (bytesToNatBE (change_endianness bitvector))).map (fun i => i + 2)

/-- The decoded entry `decode_utxo` returns (utils.py:231). -/
structure DecodedUtxo where
  version : Nat
  coinbase : Nat
  outs : List OutRecord
  height : Nat
deriving DecidableEq

/-- The output-type branch of `decode_utxo` (utils.py:211-219): the pair of
the data size in bytes and the offset the data slice starts at.  Types 0/1
take 20 bytes (40 hex chars), types 2-5 take 33 bytes with the cursor backed
up one byte so the type byte is reused as the first payload byte, any other
type takes `out_type - NSPECIALSCRIPTS` bytes. -/
def out_data_span (out_type o2 : Nat) : Nat × Nat :=
  if out_type = 0 ∨ out_type = 1 then (20, o2)
  else if out_type = 2 ∨ out_type = 3 ∨ out_type = 4 ∨ out_type = 5 then (33, o2 - 1)
  else (out_type - NSPECIALSCRIPTS, o2)

/-- One iteration of the outs loop of `decode_utxo` (utils.py:199-223) for
unspent index `i`: amount varint (decompressed by the external
`txout_decompress`, passed in as `decompress`), type varint, then the
type-dependent data slice located by `out_data_span`.  Python's slice
silently truncates at the end of the input, but the cursor advances by the
full `data_size` regardless. -/
def parse_out (decompress : Nat → Nat) (utxo : List Nat) (offset i : Nat) :
    Except DecodeErr (OutRecord × Nat) :=
  match read_varint utxo offset with
  | .error e => .error e
  | .ok (camount, o1) =>
    match read_varint utxo o1 with
    | .error e => .error e
    | .ok (out_type, o2) =>
      let p := out_data_span out_type o2
      let data := (utxo.drop p.2).take p.1
      .ok (⟨i, decompress camount, out_type, data⟩, p.2 + p.1)

/-- The outs loop of `decode_utxo` (utils.py:198-223) over the list of
unspent output indexes. -/
def parse_outs (decompress : Nat → Nat) (utxo : List Nat) :
    Nat → List Nat → Except DecodeErr (List OutRecord × Nat)
  | offset, [] => .ok ([], offset)
  | offset, i :: idxs =>
    match parse_out decompress utxo offset i with
    | .error e => .error e
    | .ok (r, o1) =>
      match parse_outs decompress utxo o1 idxs with
      | .error e => .error e
      | .ok (rs, o2) => .ok (r :: rs, o2)

/-- `n`, the number of non-zero bytes of the unspentness bitvector
(utils.py:163-171): the higher bits of `code` encode `n - 1` when both of the
first two outputs are spent (their flags `(code | 1) & 2` and `(code | 1) & 4`
are zero), and `n` directly otherwise. -/
def code_n (code : Nat) : Nat :=
  if (code ||| 0x01) &&& 0x02 = 0 ∧ (code ||| 0x01) &&& 0x04 = 0
  then (code >>> 3) + 1 else code >>> 3

/-- The list built from the first two unspentness flags (utils.py:161-171):
empty when both of outs 0/1 are spent, otherwise the indexes among `0, 1`
whose flag is set. -/
def code_vout0 (code : Nat) : List Nat :=
  if (code ||| 0x01) &&& 0x02 = 0 ∧ (code ||| 0x01) &&& 0x04 = 0 then []
  else (if (code ||| 0x01) &&& 0x02 ≠ 0 then [0] else []) ++
    (if (code ||| 0x01) &&& 0x04 ≠ 0 then [1] else [])

/-- The unspent-index list and the cursor after the optional bitvector
(utils.py:173-195): when `n > 0` the bitvector is read at `o2` and its
decoded indexes are appended to the flag-derived list. -/
def decode_vout_span (utxo : List Nat) (code o2 : Nat) : List Nat × Nat :=
  if code_n code > 0 then
    (code_vout0 code ++ bitvector_vout (parse_bitvector utxo o2 (code_n code)).1,
      (parse_bitvector utxo o2 (code_n code)).2)
  else (code_vout0 code, o2)

/-- `decode_utxo` (utils.py:123-229) up to but excluding the final length
assertion, also returning the final cursor: version varint, code varint with
coinbase and unspentness flags, optional unspentness bitvector, the outs
loop, and the height varint. -/
def decode_utxo_core (decompress : Nat → Nat) (utxo : List Nat) :
    Except DecodeErr (DecodedUtxo × Nat) :=
  match read_varint utxo 0 with
  | .error e => .error e
  | .ok (version, o1) =>
    match read_varint utxo o1 with
    | .error e => .error e
    | .ok (code, o2) =>
      let coinbase := code &&& 0x01
      let q := decode_vout_span utxo code o2
      match parse_outs decompress utxo q.2 q.1 with
      | .error e => .error e
      | .ok (outs, o4) =>
        match read_varint utxo o4 with
        | .error e => .error e
        | .ok (height, o5) => .ok (⟨version, coinbase, outs, height⟩, o5)

/-- `decode_utxo` (utils.py:123-231): `decode_utxo_core` followed by the
final `assert len(utxo) == offset`, whose failure is the fatal
`MalformedRecord` error. -/
def decode_utxo (decompress : Nat → Nat) (utxo : List Nat) :
    Except DecodeErr DecodedUtxo :=
  match decode_utxo_core decompress utxo with
  | .error e => .error e
  | .ok (entry, offset) =>
    if utxo.length = offset then .ok entry else .error .malformedRecord

/-- `natBitsAux` with enough fuel reads off exactly the bits of `val`. -/
theorem natBitsAux_getElem (fuel : Nat) :
    ∀ val, val ≤ fuel → ∀ i,
      ((natBitsAux val fuel)[i]? = some true ↔ val.testBit i = true) := by
  induction fuel with
  | zero =>
    intro val hval i
    have h0 : val = 0 := by omega
    subst h0
    simp [natBitsAux, Nat.zero_testBit]
  | succ fuel ih =>
    intro val hval i
    by_cases h0 : val = 0
    · subst h0
      simp [natBitsAux, Nat.zero_testBit]
    · rw [natBitsAux, if_neg h0]
      cases i with
      | zero =>
        simp [Nat.testBit_zero]
      | succ i =>
        simp only [List.getElem?_cons_succ]
        rw [ih (val / 2) (by omega) i, Nat.testBit_succ]

/-- The index list `setBitIndices v` contains exactly the set bits of `v`. -/
theorem mem_setBitIndices (v i : Nat) : i ∈ setBitIndices v ↔ v.testBit i = true := by
  unfold setBitIndices natBits
  rw [List.mem_map]
  constructor
  · rintro ⟨p, hp, rfl⟩
    rw [List.mem_filter] at hp
    obtain ⟨hmem, htrue⟩ := hp
    rw [List.mem_enum_iff_getElem?] at hmem
    have hp2 : p.2 = true := htrue
    rw [hp2] at hmem
    exact (natBitsAux_getElem v v le_rfl p.1).mp hmem
  · intro ht
    refine ⟨(i, true), ?_, rfl⟩
    rw [List.mem_filter, List.mem_enum_iff_getElem?]
    exact ⟨(natBitsAux_getElem v v le_rfl i).mpr ht, rfl⟩

/-- Adding 2 to each element preserves and reflects membership. -/
theorem mem_map_add_two (l : List Nat) (i : Nat) :
    (i + 2) ∈ l.map (fun j => j + 2) ↔ i ∈ l := by
  rw [List.mem_map]
  constructor
  · rintro ⟨a, ha, hEq⟩
    have : a = i := by omega
    subst this
    exact ha
  · intro h
    exact ⟨i, h, rfl⟩

/-- C5: Bitvector index mapping: after the unspentness bitvector's bytes are
reversed from little-endian to big-endian and read as a bit string, a set bit
at position `i` (counted from the least significant bit) corresponds exactly
to unspent output index `i + 2`; in particular bit 14 corresponds to index
16, and `decode_utxo` on a record whose bitvector is `04 40` (little-endian)
yields the additional unspent indexes 4 and 16. -/
theorem bitvector_index_mapping (bv : List Nat) (i : Nat) :
    ((i + 2) ∈ bitvector_vout bv ↔
      (bytesToNatBE (change_endianness bv)).testBit i = true) ∧
    (16 ∈ bitvector_vout bv ↔
      (bytesToNatBE (change_endianness bv)).testBit 14 = true) ∧
    decode_utxo (fun x => x)
        ([1, 8, 4, 64] ++ [0, 0] ++ List.replicate 20 0 ++
          [0, 0] ++ List.replicate 20 0 ++ [1]) =
      .ok ⟨1, 0, [⟨4, 0, 0, List.replicate 20 0⟩, ⟨16, 0, 0, List.replicate 20 0⟩], 1⟩ := by
  refine ⟨?_, ?_, by rfl⟩
  · unfold bitvector_vout
    rw [mem_map_add_two]
    exact mem_setBitIndices _ i
  · unfold bitvector_vout
    have h16 : (16 : Nat) = 14 + 2 := by norm_num
    rw [h16, mem_map_add_two]
    exact mem_setBitIndices _ 14

/-- A successful varint byte read is nonempty, stays within the input, and is
unchanged by extending the input. -/
theorem parse_b128_list_spec (l : List Nat) :
    ∀ ds, parse_b128_list l = .ok ds →
      1 ≤ ds.length ∧ ds.length ≤ l.length ∧
      ∀ ext, parse_b128_list (l ++ ext) = .ok ds := by
  induction l with
  | nil =>
    intro ds h
    exact absurd h (by simp [parse_b128_list])
  | cons d rest ih =>
    intro ds h
    rw [parse_b128_list] at h
    by_cases hd : d &&& 128 = 0
    · rw [if_pos hd] at h
      injection h with h
      subst h
      refine ⟨by simp, by simp, ?_⟩
      intro ext
      simp [parse_b128_list, hd]
    · rw [if_neg hd] at h
      cases hrec : parse_b128_list rest with
      | error e =>
        rw [hrec] at h
        exact absurd h (by simp)
      | ok ds' =>
        rw [hrec] at h
        injection h with h
        subst h
        obtain ⟨h1, h2, h3⟩ := ih ds' hrec
        refine ⟨by simp, by simp; omega, ?_⟩
        intro ext
        rw [List.cons_append, parse_b128_list, if_neg hd, h3 ext]

/-- A successful `parse_b128` advances the offset, stays within the input,
and is unchanged by extending the input. -/
theorem parse_b128_spec (u : List Nat) (off : Nat) (ds : List Nat) (o : Nat)
    (h : parse_b128 u off = .ok (ds, o)) :
    off < o ∧ o ≤ u.length ∧ ∀ ext, parse_b128 (u ++ ext) off = .ok (ds, o) := by
  unfold parse_b128 at h
  cases hp : parse_b128_list (u.drop off) with
  | error e =>
    rw [hp] at h
    simp at h
  | ok ds' =>
    rw [hp] at h
    injection h with h
    obtain ⟨rfl, rfl⟩ : ds' = ds ∧ off + ds'.length = o := by
      constructor <;> [exact congrArg Prod.fst h; exact congrArg Prod.snd h]
    obtain ⟨h1, h2, h3⟩ := parse_b128_list_spec _ _ hp
    rw [List.length_drop] at h2
    have hofflt : off < u.length := by omega
    refine ⟨by omega, by omega, ?_⟩
    intro ext
    unfold parse_b128
    rw [List.drop_append_eq_append_drop]
    have : off - u.length = 0 := by omega
    rw [this, List.drop_zero, h3 ext]

/-- A successful `read_varint` advances the offset, stays within the input,
and is unchanged by extending the input. -/
theorem read_varint_spec (u : List Nat) (off : Nat) (n o : Nat)
    (h : read_varint u off = .ok (n, o)) :
    off < o ∧ o ≤ u.length ∧ ∀ ext, read_varint (u ++ ext) off = .ok (n, o) := by
  unfold read_varint at h
  cases hp : parse_b128 u off with
  | error e =>
    rw [hp] at h
    simp at h
  | ok p =>
    obtain ⟨ds, o'⟩ := p
    rw [hp] at h
    dsimp only at h
    cases hd : b128_decode ds with
    | none =>
      rw [hd] at h
      simp at h
    | some m =>
      rw [hd] at h
      have hmo : m = n ∧ o' = o := by
        injection h with h2
        exact ⟨congrArg Prod.fst h2, congrArg Prod.snd h2⟩
      obtain ⟨rfl, rfl⟩ := hmo
      obtain ⟨h1, h2, h3⟩ := parse_b128_spec u off ds o' hp
      refine ⟨h1, h2, ?_⟩
      intro ext
      unfold read_varint
      rw [h3 ext]
      dsimp only
      rw [hd]

/-- `parse_bv_go` never consumes more positions than `l.length + n`. -/
theorem parse_bv_go_consumed (l : List Nat) :
    ∀ n, (parse_bv_go l n).2 ≤ l.length + n := by
  induction l with
  | nil =>
    intro n
    cases n <;> simp [parse_bv_go]
  | cons b rest ih =>
    intro n
    cases n with
    | zero => simp [parse_bv_go]
    | succ n =>
      rw [parse_bv_go]
      by_cases hb : b = 0
      · rw [if_pos hb]
        have := ih (n + 1)
        simp only [List.length_cons]
        omega
      · rw [if_neg hb]
        have := ih n
        simp only [List.length_cons]
        omega

/-- When the bitvector loop finishes within the input, extending the input
does not change its result. -/
theorem parse_bv_go_ext (l : List Nat) :
    ∀ n, (parse_bv_go l n).2 ≤ l.length →
      ∀ ext, parse_bv_go (l ++ ext) n = parse_bv_go l n := by
  induction l with
  | nil =>
    intro n hc ext
    cases n with
    | zero => simp [parse_bv_go]
    | succ n => simp [parse_bv_go] at hc
  | cons b rest ih =>
    intro n hc ext
    cases n with
    | zero => simp [parse_bv_go]
    | succ n =>
      rw [parse_bv_go] at hc ⊢
      rw [List.cons_append, parse_bv_go]
      by_cases hb : b = 0
      · rw [if_pos hb] at hc ⊢
        rw [ih (n + 1) (by simp at hc ⊢; omega) ext]
      · rw [if_neg hb] at hc ⊢
        rw [ih n (by simp at hc ⊢; omega) ext]

/-- When the bitvector loop finishes within the input, it has collected
exactly `n` non-zero bytes. -/
theorem parse_bv_go_count (l : List Nat) :
    ∀ n, (parse_bv_go l n).2 ≤ l.length →
      ((parse_bv_go l n).1.filter (fun b => decide (b ≠ 0))).length = n := by
  induction l with
  | nil =>
    intro n hc
    cases n with
    | zero => simp [parse_bv_go]
    | succ n => simp [parse_bv_go] at hc
  | cons b rest ih =>
    intro n hc
    cases n with
    | zero => simp [parse_bv_go]
    | succ n =>
      rw [parse_bv_go] at hc ⊢
      by_cases hb : b = 0
      · rw [if_pos hb] at hc ⊢
        simp only [List.filter_cons]
        rw [if_neg (by simp [hb])]
        exact ih (n + 1) (by simp at hc ⊢; omega)
      · rw [if_neg hb] at hc ⊢
        simp only [List.filter_cons]
        rw [if_pos (by simp [hb])]
        simp only [List.length_cons]
        rw [ih n (by simp at hc ⊢; omega)]

/-- The data slice starts at most one byte before the type varint's end and
never earlier than the varint's end minus one. -/
theorem out_data_span_bounds (t o2 : Nat) :
    o2 - 1 ≤ (out_data_span t o2).2 ∧ (out_data_span t o2).2 ≤ o2 := by
  unfold out_data_span
  split
  · dsimp only
    omega
  · split
    · dsimp only
      omega
    · dsimp only
      omega

/-- A successful `parse_out` advances the offset, records the given index,
and — when it ends within the input — is unchanged by extending the input. -/
theorem parse_out_spec (dec : Nat → Nat) (u : List Nat) (off i : Nat) (r : OutRecord) (o : Nat)
    (h : parse_out dec u off i = .ok (r, o)) :
    off < o ∧ r.index = i ∧
    ∀ ext, o ≤ u.length → parse_out dec (u ++ ext) off i = .ok (r, o) := by
  unfold parse_out at h
  cases h1 : read_varint u off with
  | error e =>
    rw [h1] at h
    simp at h
  | ok p1 =>
    obtain ⟨camount, o1⟩ := p1
    rw [h1] at h
    dsimp only at h
    cases h2 : read_varint u o1 with
    | error e =>
      rw [h2] at h
      simp at h
    | ok p2 =>
      obtain ⟨out_type, o2⟩ := p2
      rw [h2] at h
      dsimp only at h
      obtain ⟨hs1, hs2, hs3⟩ := read_varint_spec u off camount o1 h1
      obtain ⟨ht1, ht2, ht3⟩ := read_varint_spec u o1 out_type o2 h2
      have hro : r = ⟨i, dec camount, out_type,
            (u.drop (out_data_span out_type o2).2).take (out_data_span out_type o2).1⟩ ∧
          (out_data_span out_type o2).2 + (out_data_span out_type o2).1 = o := by
        injection h with h'
        exact ⟨(congrArg Prod.fst h').symm, congrArg Prod.snd h'⟩
      obtain ⟨hr, ho⟩ := hro
      have hspan := out_data_span_bounds out_type o2
      refine ⟨by omega, by rw [hr], ?_⟩
      intro ext hlen
      unfold parse_out
      rw [hs3 ext]
      dsimp only
      rw [ht3 ext]
      dsimp only
      have hslice : ((u ++ ext).drop (out_data_span out_type o2).2).take
            (out_data_span out_type o2).1 =
          (u.drop (out_data_span out_type o2).2).take (out_data_span out_type o2).1 := by
        rw [List.drop_append_eq_append_drop]
        have hz : (out_data_span out_type o2).2 - u.length = 0 := by omega
        rw [hz, List.drop_zero]
        rw [List.take_append_eq_append_take]
        have hz2 : (out_data_span out_type o2).1 -
            (u.drop (out_data_span out_type o2).2).length = 0 := by
          rw [List.length_drop]
          omega
        rw [hz2, List.take_zero, List.append_nil]
      rw [hslice, ho, hr]

/-- A successful outs loop never moves the cursor backwards, records exactly
the given indexes, and — when it ends within the input — is unchanged by
extending the input. -/
theorem parse_outs_spec (dec : Nat → Nat) (u : List Nat) (idxs : List Nat) :
    ∀ off rs o, parse_outs dec u off idxs = .ok (rs, o) →
      off ≤ o ∧ rs.map (fun r => r.index) = idxs ∧
      ∀ ext, o ≤ u.length → parse_outs dec (u ++ ext) off idxs = .ok (rs, o) := by
  induction idxs with
  | nil =>
    intro off rs o h
    rw [parse_outs] at h
    have hro : ([] : List OutRecord) = rs ∧ off = o := by
      injection h with h'
      exact ⟨congrArg Prod.fst h', congrArg Prod.snd h'⟩
    obtain ⟨hr, ho⟩ := hro
    subst ho
    refine ⟨le_rfl, by rw [← hr]; simp, ?_⟩
    intro ext _
    rw [parse_outs, hr]
  | cons i idxs ih =>
    intro off rs o h
    rw [parse_outs] at h
    cases h1 : parse_out dec u off i with
    | error e =>
      rw [h1] at h
      simp at h
    | ok p1 =>
      obtain ⟨r, o1⟩ := p1
      rw [h1] at h
      dsimp only at h
      cases h2 : parse_outs dec u o1 idxs with
      | error e =>
        rw [h2] at h
        simp at h
      | ok p2 =>
        obtain ⟨rs', o2⟩ := p2
        rw [h2] at h
        dsimp only at h
        have hro : r :: rs' = rs ∧ o2 = o := by
          injection h with h'
          exact ⟨congrArg Prod.fst h', congrArg Prod.snd h'⟩
        obtain ⟨hr, ho⟩ := hro
        subst ho
        obtain ⟨ha, hb, hc⟩ := ih o1 rs' o2 h2
        obtain ⟨pa, pb, pc⟩ := parse_out_spec dec u off i r o1 h1
        refine ⟨by omega, by rw [← hr]; simp [pb, hb], ?_⟩
        intro ext hlen
        rw [parse_outs]
        rw [pc ext (by omega)]
        dsimp only
        rw [hc ext hlen]
        dsimp only
        rw [hr]

/-- The bitvector stage never moves the cursor backwards. -/
theorem decode_vout_span_mono (u : List Nat) (code o2 : Nat) :
    o2 ≤ (decode_vout_span u code o2).2 := by
  unfold decode_vout_span
  split
  · dsimp only
    unfold parse_bitvector
    dsimp only
    omega
  · dsimp only
    exact le_rfl

/-- When the bitvector stage ends within the input, extending the input does
not change it. -/
theorem decode_vout_span_ext (u : List Nat) (code o2 : Nat)
    (ho2 : o2 ≤ u.length) (hend : (decode_vout_span u code o2).2 ≤ u.length) :
    ∀ ext, decode_vout_span (u ++ ext) code o2 = decode_vout_span u code o2 := by
  intro ext
  unfold decode_vout_span at hend ⊢
  by_cases hn : code_n code > 0
  · rw [if_pos hn] at hend ⊢
    unfold parse_bitvector at hend ⊢
    dsimp only at hend ⊢
    have hdrop : (u ++ ext).drop o2 = u.drop o2 ++ ext := by
      rw [List.drop_append_eq_append_drop]
      have hz : o2 - u.length = 0 := by omega
      rw [hz, List.drop_zero]
    rw [hdrop]
    rw [parse_bv_go_ext (u.drop o2) (code_n code) (by rw [List.length_drop]; omega) ext]
    rw [if_pos hn]
  · rw [if_neg hn] at hend ⊢
    rw [if_neg hn]

/-- A successful `decode_utxo_core` ends within the input and is unchanged by
extending the input. -/
theorem decode_utxo_core_spec (dec : Nat → Nat) (u : List Nat) (e : DecodedUtxo) (o : Nat)
    (h : decode_utxo_core dec u = .ok (e, o)) :
    o ≤ u.length ∧ ∀ ext, decode_utxo_core dec (u ++ ext) = .ok (e, o) := by
  unfold decode_utxo_core at h
  cases h1 : read_varint u 0 with
  | error e1 =>
    rw [h1] at h
    simp at h
  | ok p1 =>
    obtain ⟨version, o1⟩ := p1
    rw [h1] at h
    dsimp only at h
    cases h2 : read_varint u o1 with
    | error e1 =>
      rw [h2] at h
      simp at h
    | ok p2 =>
      obtain ⟨code, o2⟩ := p2
      rw [h2] at h
      dsimp only at h
      cases h3 : parse_outs dec u (decode_vout_span u code o2).2
          (decode_vout_span u code o2).1 with
      | error e1 =>
        rw [h3] at h
        simp at h
      | ok p3 =>
        obtain ⟨outs, o4⟩ := p3
        rw [h3] at h
        dsimp only at h
        cases h4 : read_varint u o4 with
        | error e1 =>
          rw [h4] at h
          simp at h
        | ok p4 =>
          obtain ⟨height, o5⟩ := p4
          rw [h4] at h
          dsimp only at h
          have he : (⟨version, code &&& 1, outs, height⟩ : DecodedUtxo) = e ∧ o5 = o := by
            injection h with h'
            exact ⟨congrArg Prod.fst h', congrArg Prod.snd h'⟩
          obtain ⟨he1, he2⟩ := he
          subst he2
          obtain ⟨hv1, hv2, hv3⟩ := read_varint_spec u 0 version o1 h1
          obtain ⟨hc1, hc2, hc3⟩ := read_varint_spec u o1 code o2 h2
          obtain ⟨ho1, ho2, ho3⟩ := parse_outs_spec dec u _ _ _ _ h3
          obtain ⟨hh1, hh2, hh3⟩ := read_varint_spec u o4 height o5 h4
          have hq := decode_vout_span_mono u code o2
          refine ⟨hh2, ?_⟩
          intro ext
          unfold decode_utxo_core
          rw [hv3 ext]
          dsimp only
          rw [hc3 ext]
          dsimp only
          rw [decode_vout_span_ext u code o2 (by omega) (by omega) ext]
          rw [ho3 ext (by omega)]
          dsimp only
          rw [hh3 ext]
          dsimp only
          rw [he1]

/-- C3: Record decode completeness: a successful decode means the cursor
landed exactly at the end of the input (`decode_utxo_core` returns the input
length as final offset), and appending one spurious trailing byte to the same
record makes `decode_utxo` fail with `MalformedRecord`. -/
theorem record_decode_completeness (dec : Nat → Nat) (u : List Nat) (e : DecodedUtxo)
    (h : decode_utxo dec u = .ok e) :
    decode_utxo_core dec u = .ok (e, u.length) ∧
    ∀ b, decode_utxo dec (u ++ [b]) = .error .malformedRecord := by
  unfold decode_utxo at h
  cases hcore : decode_utxo_core dec u with
  | error e1 =>
    rw [hcore] at h
    simp at h
  | ok p =>
    obtain ⟨e', o⟩ := p
    rw [hcore] at h
    dsimp only at h
    by_cases hlen : u.length = o
    · rw [if_pos hlen] at h
      injection h with h
      refine ⟨by rw [h, hlen], ?_⟩
      intro b
      obtain ⟨hle, hext⟩ := decode_utxo_core_spec dec u e' o hcore
      unfold decode_utxo
      rw [hext [b]]
      dsimp only
      rw [if_neg (by simp; omega)]
    · rw [if_neg hlen] at h
      simp at h

/-- Witness for C3 at a concrete record: version 1, non-coinbase, out 0
unspent as a P2PKH output, height 1; the cursor ends at the full length 25,
and a 26-byte extension of the record is rejected as malformed. -/
theorem record_decode_completeness_witness :
    decode_utxo_core (fun x => x) ([1, 2, 0, 0] ++ List.replicate 20 0 ++ [1]) =
      .ok (⟨1, 0, [⟨0, 0, 0, List.replicate 20 0⟩], 1⟩,
        ([1, 2, 0, 0] ++ List.replicate 20 0 ++ [1] : List Nat).length) ∧
    decode_utxo (fun x => x) (([1, 2, 0, 0] ++ List.replicate 20 0 ++ [1]) ++ [7]) =
      .error .malformedRecord := by
  have h := record_decode_completeness (fun x => x)
    ([1, 2, 0, 0] ++ List.replicate 20 0 ++ [1])
    ⟨1, 0, [⟨0, 0, 0, List.replicate 20 0⟩], 1⟩ (by rfl)
  exact ⟨h.1, h.2 7⟩

/-- A successful `decode_utxo` comes from a `decode_utxo_core` run whose
final cursor is exactly the input length. -/
theorem decode_utxo_ok_core (dec : Nat → Nat) (u : List Nat) (e : DecodedUtxo)
    (h : decode_utxo dec u = .ok e) :
    decode_utxo_core dec u = .ok (e, u.length) := by
  unfold decode_utxo at h
  cases hcore : decode_utxo_core dec u with
  | error e1 =>
    rw [hcore] at h
    simp at h
  | ok p =>
    obtain ⟨e', o⟩ := p
    rw [hcore] at h
    dsimp only at h
    by_cases hlen : u.length = o
    · rw [if_pos hlen] at h
      injection h with h
      rw [h, hlen]
    · rw [if_neg hlen] at h
      simp at h

/-- Base-256 accumulation never returns to zero once the accumulator or a
remaining byte is non-zero. -/
theorem foldl256_ne_zero (l : List Nat) :
    ∀ a : Nat, (a ≠ 0 ∨ ∃ b ∈ l, b ≠ 0) → l.foldl (fun x y => x * 256 + y) a ≠ 0 := by
  induction l with
  | nil =>
    intro a ha
    rcases ha with ha | ⟨b, hb, _⟩
    · simpa using ha
    · simp at hb
  | cons c cs ih =>
    intro a ha
    rw [List.foldl_cons]
    by_cases hac : a * 256 + c = 0
    · have ha0 : a = 0 ∧ c = 0 := by omega
      rcases ha with ha | ⟨b, hb, hbne⟩
      · exact absurd ha0.1 ha
      · rcases List.mem_cons.mp hb with rfl | hb'
        · exact absurd ha0.2 hbne
        · exact ih (a * 256 + c) (Or.inr ⟨b, hb', hbne⟩)
    · exact ih (a * 256 + c) (Or.inl hac)

/-- A byte list containing a non-zero byte has a non-zero big-endian value. -/
theorem bytesToNatBE_ne_zero (l : List Nat) (h : ∃ b ∈ l, b ≠ 0) :
    bytesToNatBE l ≠ 0 :=
  foldl256_ne_zero l 0 (Or.inr h)

/-- A positive value has a nonempty set-bit index list. -/
theorem setBitIndices_ne_nil (v : Nat) (h : v ≠ 0) : setBitIndices v ≠ [] := by
  obtain ⟨i, hi, _⟩ := Nat.exists_most_significant_bit h
  intro hnil
  have hmem := (mem_setBitIndices v i).mpr hi
  rw [hnil] at hmem
  simp at hmem

/-- A bitvector with a non-zero byte yields a nonempty extended index list. -/
theorem bitvector_vout_ne_nil (bv : List Nat) (h : ∃ b ∈ bv, b ≠ 0) :
    bitvector_vout bv ≠ [] := by
  unfold bitvector_vout
  intro hnil
  rw [List.map_eq_nil_iff] at hnil
  have hne : bytesToNatBE (change_endianness bv) ≠ 0 := by
    apply bytesToNatBE_ne_zero
    obtain ⟨b, hb, hbne⟩ := h
    exact ⟨b, by simp [change_endianness, hb], hbne⟩
  exact setBitIndices_ne_nil _ hne hnil

/-- Every extended index is at least 2. -/
theorem bitvector_vout_ge_two (bv : List Nat) : ∀ x ∈ bitvector_vout bv, 2 ≤ x := by
  intro x hx
  unfold bitvector_vout at hx
  rw [List.mem_map] at hx
  obtain ⟨i, _, rfl⟩ := hx
  omega

/-- C8 counterexample: the record `01 00 01 00 00 <20 zero bytes> 01` has
`code = 0`: both unspentness flags clear and higher bits zero, yet its
successful decode yields the non-empty outs list `[index 2]` — because
`code >> 3 = 0` encodes `n - 1 = 0`, i.e. one non-zero bitvector byte, which
necessarily marks at least one unspent higher output. -/
theorem empty_outs_counterexample :
    ((0 : Nat) ||| 1) &&& 2 = 0 ∧ ((0 : Nat) ||| 1) &&& 4 = 0 ∧ (0 : Nat) >>> 3 = 0 ∧
    decode_utxo (fun x => x) ([1, 0, 1, 0, 0] ++ List.replicate 20 0 ++ [1]) =
      .ok ⟨1, 0, [⟨2, 0, 0, List.replicate 20 0⟩], 1⟩ ∧
    ([⟨2, 0, 0, List.replicate 20 0⟩] : List OutRecord) ≠ [] := by
  refine ⟨by decide, by decide, by decide, by rfl, by simp⟩

/-- C8 amended: for every record whose `code` has the out0/out1 unspentness
bits clear, the higher bits of `code` encode `n - 1`, so the decoder reads a
bitvector with `(code >> 3) + 1` non-zero bytes; a successful decode
therefore yields a non-empty outs list all of whose indexes are at least 2 —
never an empty outs list. -/
theorem spent_first_outs (dec : Nat → Nat) (u : List Nat) (e : DecodedUtxo)
    (version code o1 o2 : Nat)
    (hv : read_varint u 0 = .ok (version, o1))
    (hc : read_varint u o1 = .ok (code, o2))
    (hf0 : (code ||| 1) &&& 2 = 0) (hf1 : (code ||| 1) &&& 4 = 0)
    (h : decode_utxo dec u = .ok e) :
    e.outs ≠ [] ∧ (∀ r ∈ e.outs, 2 ≤ r.index) ∧
    ((parse_bitvector u o2 ((code >>> 3) + 1)).1.filter
        (fun b => decide (b ≠ 0))).length = (code >>> 3) + 1 := by
  have hcore := decode_utxo_ok_core dec u e h
  unfold decode_utxo_core at hcore
  rw [hv] at hcore
  dsimp only at hcore
  rw [hc] at hcore
  dsimp only at hcore
  have hn : code_n code = (code >>> 3) + 1 := by
    unfold code_n
    rw [if_pos ⟨hf0, hf1⟩]
  have hv0 : code_vout0 code = [] := by
    unfold code_vout0
    rw [if_pos ⟨hf0, hf1⟩]
  have hq : decode_vout_span u code o2 =
      (bitvector_vout (parse_bitvector u o2 ((code >>> 3) + 1)).1,
        (parse_bitvector u o2 ((code >>> 3) + 1)).2) := by
    unfold decode_vout_span
    rw [hn, hv0, if_pos (by omega)]
    simp
  rw [hq] at hcore
  dsimp only at hcore
  cases h3 : parse_outs dec u (parse_bitvector u o2 ((code >>> 3) + 1)).2
      (bitvector_vout (parse_bitvector u o2 ((code >>> 3) + 1)).1) with
  | error e1 =>
    rw [h3] at hcore
    simp at hcore
  | ok p3 =>
    obtain ⟨outs, o4⟩ := p3
    rw [h3] at hcore
    dsimp only at hcore
    cases h4 : read_varint u o4 with
    | error e1 =>
      rw [h4] at hcore
      simp at hcore
    | ok p4 =>
      obtain ⟨height, o5⟩ := p4
      rw [h4] at hcore
      dsimp only at hcore
      have he : (⟨version, code &&& 1, outs, height⟩ : DecodedUtxo) = e ∧ o5 = u.length := by
        injection hcore with h'
        exact ⟨congrArg Prod.fst h', congrArg Prod.snd h'⟩
      obtain ⟨ho_out, ho_idx, _⟩ := parse_outs_spec dec u _ _ _ _ h3
      obtain ⟨hh1, hh2, _⟩ := read_varint_spec u o4 height o5 h4
      have hbv_end : (parse_bitvector u o2 ((code >>> 3) + 1)).2 ≤ u.length := by omega
      have hgo : (parse_bv_go (u.drop o2) ((code >>> 3) + 1)).2 ≤ (u.drop o2).length := by
        unfold parse_bitvector at hbv_end
        dsimp only at hbv_end
        rw [List.length_drop]
        omega
      have hthird : ((parse_bitvector u o2 ((code >>> 3) + 1)).1.filter
          (fun b => decide (b ≠ 0))).length = (code >>> 3) + 1 := by
        unfold parse_bitvector
        dsimp only
        exact parse_bv_go_count (u.drop o2) ((code >>> 3) + 1) hgo
      have hnz : ∃ b ∈ (parse_bitvector u o2 ((code >>> 3) + 1)).1, b ≠ 0 := by
        by_contra hno
        push_neg at hno
        have hfil : (parse_bitvector u o2 ((code >>> 3) + 1)).1.filter
            (fun b => decide (b ≠ 0)) = [] := by
          rw [List.filter_eq_nil_iff]
          intro b hb
          simpa using hno b hb
        rw [hfil] at hthird
        simp at hthird
      have houts : e.outs = outs := by
        rw [← he.1]
      have hmap : outs.map (fun r => r.index) =
          bitvector_vout (parse_bitvector u o2 ((code >>> 3) + 1)).1 := ho_idx
      refine ⟨?_, ?_, hthird⟩
      · rw [houts]
        intro hnil
        rw [hnil] at hmap
        exact bitvector_vout_ne_nil _ hnz hmap.symm
      · intro r hr
        rw [houts] at hr
        have : r.index ∈ bitvector_vout (parse_bitvector u o2 ((code >>> 3) + 1)).1 := by
          rw [← hmap]
          exact List.mem_map_of_mem (fun r => r.index) hr
        exact bitvector_vout_ge_two _ _ this

/-- Witness for C8 (amended) at the concrete record `01 00 01 00 00
<20 zero bytes> 01` (`code = 0`, both first outs spent, one non-zero
bitvector byte marking output 2). -/
theorem spent_first_outs_witness :
    (⟨1, 0, [⟨2, 0, 0, List.replicate 20 0⟩], 1⟩ : DecodedUtxo).outs ≠ [] ∧
    (∀ r ∈ (⟨1, 0, [⟨2, 0, 0, List.replicate 20 0⟩], 1⟩ : DecodedUtxo).outs, 2 ≤ r.index) ∧
    ((parse_bitvector ([1, 0, 1, 0, 0] ++ List.replicate 20 0 ++ [1]) 2
        (((0 : Nat) >>> 3) + 1)).1.filter (fun b => decide (b ≠ 0))).length =
      ((0 : Nat) >>> 3) + 1 :=
  spent_first_outs (fun x => x) ([1, 0, 1, 0, 0] ++ List.replicate 20 0 ++ [1])
    ⟨1, 0, [⟨2, 0, 0, List.replicate 20 0⟩], 1⟩ 1 0 1 2
    (by rfl) (by rfl) (by decide) (by decide) (by rfl)

/-- One line of the parsed-utxo input file of `accumulate_dust_lm`
(utils.py:320-331): the precomputed per-output dust and loss-making fee-rate
crossovers, the satoshi amount, and the utxo data length. -/
structure DustRecord where
  dust : Nat
  loss_making : Nat
  amount : Nat
  utxo_data_len : Nat
deriving DecidableEq

/-- The mutable state of `accumulate_dust_lm` (utils.py:308-318): six
fee-rate-keyed tables and three grand totals.  The Python dictionaries keyed
by `str(fee_per_byte)` are modelled as functions from the fee rate. -/
structure DustState where
  dust : Nat → Nat
  value_dust : Nat → Nat
  data_len_dust : Nat → Nat
  lm : Nat → Nat
  value_lm : Nat → Nat
  data_len_lm : Nat → Nat
  total_utxo : Nat
  total_value : Nat
  total_data_len : Nat

/-- The all-zero tables the accumulator starts from (utils.py:308-318). -/
def initDustState : DustState :=
  ⟨fun _ => 0, fun _ => 0, fun _ => 0, fun _ => 0, fun _ => 0, fun _ => 0, 0, 0, 0⟩

/-- Add `k` to `f` at key `r` only (one Python dictionary update). -/
def bumpAt (f : Nat → Nat) (r k : Nat) : Nat → Nat :=
  fun x => if x = r then f x + k else f x

/-- The body of the `for fee_per_byte in range(...)` loop of
`accumulate_dust_lm` (utils.py:323-331) for one fee rate `r`: the chained
Python comparison `fee_per_byte >= data["dust"] != 0` is
`r ≥ dust ∧ dust ≠ 0`, and analogously for the loss-making threshold. -/
def dust_rate_step (rec : DustRecord) (st : DustState) (r : Nat) : DustState :=
  let st1 := if rec.dust ≤ r ∧ rec.dust ≠ 0 then
      { st with dust := bumpAt st.dust r 1,
                value_dust := bumpAt st.value_dust r rec.amount,
                data_len_dust := bumpAt st.data_len_dust r rec.utxo_data_len }
    else st
  if rec.loss_making ≤ r ∧ rec.loss_making ≠ 0 then
      { st1 with lm := bumpAt st1.lm r 1,
                 value_lm := bumpAt st1.value_lm r rec.amount,
                 data_len_lm := bumpAt st1.data_len_lm r rec.utxo_data_len }
  else st1

/-- Folding one input line into the accumulator state (utils.py:320-335):
the fee-rate loop followed by the three grand-total updates. -/
def accumulate_record (rates : List Nat) (st : DustState) (rec : DustRecord) : DustState :=
  let st1 := rates.foldl (dust_rate_step rec) st
  { st1 with total_utxo := st1.total_utxo + 1,
             total_value := st1.total_value + rec.amount,
             total_data_len := st1.total_data_len + rec.utxo_data_len }

/-- `accumulate_dust_lm` (utils.py:292-346) as a pure fold: the file I/O and
JSON framing are external collaborators; the core is the sequential fold of
the parsed records over the fee-rate tables. -/
def accumulate_dust_lm (rates : List Nat) (records : List DustRecord) : DustState :=
  records.foldl (accumulate_record rates) initDustState

/-- The configured fee-rate table `range(MIN_FEE_PER_BYTE, MAX_FEE_PER_BYTE,
FEE_STEP)` (utils.py:308, 323).  The three constants come from the package
`__init__`, which is not among the sources, so the range is kept as
parameters: `List.range' a n s` lists `a, a + s, ...` with
`n = ceil((b - a) / s)` terms, which is Python's `range(a, b, s)` for a
positive step. -/
def fee_rates (minF maxF step : Nat) : List Nat :=
  List.range' minF ((maxF - minF + step - 1) / step) step

/-- Pointwise order on accumulator states: every bucket of every table and
every grand total. -/
def dustStateLE (s1 s2 : DustState) : Prop :=
  (∀ r, s1.dust r ≤ s2.dust r) ∧ (∀ r, s1.value_dust r ≤ s2.value_dust r) ∧
  (∀ r, s1.data_len_dust r ≤ s2.data_len_dust r) ∧ (∀ r, s1.lm r ≤ s2.lm r) ∧
  (∀ r, s1.value_lm r ≤ s2.value_lm r) ∧ (∀ r, s1.data_len_lm r ≤ s2.data_len_lm r) ∧
  s1.total_utxo ≤ s2.total_utxo ∧ s1.total_value ≤ s2.total_value ∧
  s1.total_data_len ≤ s2.total_data_len

theorem dustStateLE_refl (s : DustState) : dustStateLE s s := by
  unfold dustStateLE
  refine ⟨?_, ?_, ?_, ?_, ?_, ?_, le_rfl, le_rfl, le_rfl⟩ <;> intro r <;> exact le_rfl

theorem dustStateLE_trans (s1 s2 s3 : DustState)
    (h1 : dustStateLE s1 s2) (h2 : dustStateLE s2 s3) : dustStateLE s1 s3 := by
  obtain ⟨a1, b1, c1, d1, e1, f1, g1, h1', i1⟩ := h1
  obtain ⟨a2, b2, c2, d2, e2, f2, g2, h2', i2⟩ := h2
  refine ⟨?_, ?_, ?_, ?_, ?_, ?_, ?_, ?_, ?_⟩
  · intro r
    exact le_trans (a1 r) (a2 r)
  · intro r
    exact le_trans (b1 r) (b2 r)
  · intro r
    exact le_trans (c1 r) (c2 r)
  · intro r
    exact le_trans (d1 r) (d2 r)
  · intro r
    exact le_trans (e1 r) (e2 r)
  · intro r
    exact le_trans (f1 r) (f2 r)
  · exact le_trans g1 g2
  · exact le_trans h1' h2'
  · exact le_trans i1 i2

theorem bumpAt_le (f : Nat → Nat) (r k x : Nat) : f x ≤ bumpAt f r k x := by
  unfold bumpAt
  by_cases h : x = r
  · rw [if_pos h]
    omega
  · rw [if_neg h]

/-- One fee-rate step never decreases any bucket or total. -/
theorem dust_rate_step_le (rec : DustRecord) (st : DustState) (r : Nat) :
    dustStateLE st (dust_rate_step rec st r) := by
  unfold dust_rate_step
  by_cases h1 : rec.dust ≤ r ∧ rec.dust ≠ 0 <;>
    by_cases h2 : rec.loss_making ≤ r ∧ rec.loss_making ≠ 0 <;>
    [rw [if_pos h1, if_pos h2]; rw [if_pos h1, if_neg h2];
     rw [if_neg h1, if_pos h2]; rw [if_neg h1, if_neg h2]] <;>
    refine ⟨?_, ?_, ?_, ?_, ?_, ?_, ?_, ?_, ?_⟩ <;>
    first
    | exact le_rfl
    | (intro x
       first
       | exact bumpAt_le _ _ _ _
       | exact le_rfl)

/-- The fee-rate loop never decreases any bucket or total. -/
theorem foldl_rate_le (rec : DustRecord) (rates : List Nat) :
    ∀ st, dustStateLE st (rates.foldl (dust_rate_step rec) st) := by
  induction rates with
  | nil =>
    intro st
    exact dustStateLE_refl st
  | cons a l ih =>
    intro st
    rw [List.foldl_cons]
    exact dustStateLE_trans _ _ _ (dust_rate_step_le rec st a) (ih (dust_rate_step rec st a))

/-- Folding one record never decreases any bucket or total. -/
theorem accumulate_record_le (rates : List Nat) (st : DustState) (rec : DustRecord) :
    dustStateLE st (accumulate_record rates st rec) := by
  obtain ⟨a, b, c, d, e, f, g, h', i⟩ := foldl_rate_le rec rates st
  exact ⟨a, b, c, d, e, f, le_trans g (Nat.le_succ _),
    le_trans h' (Nat.le_add_right _ _), le_trans i (Nat.le_add_right _ _)⟩

/-- Folding any stream of records never decreases any bucket or total. -/
theorem accumulate_stream_le (rates : List Nat) (records : List DustRecord) :
    ∀ st, dustStateLE st (records.foldl (accumulate_record rates) st) := by
  induction records with
  | nil =>
    intro st
    exact dustStateLE_refl st
  | cons rec recs ih =>
    intro st
    rw [List.foldl_cons]
    exact dustStateLE_trans _ _ _ (accumulate_record_le rates st rec) (ih _)

/-- The dust bucket at `r` after the step for fee rate `a`. -/
theorem dust_rate_step_dust (rec : DustRecord) (st : DustState) (a r : Nat) :
    (dust_rate_step rec st a).dust r =
      st.dust r + if r = a ∧ rec.dust ≤ a ∧ rec.dust ≠ 0 then 1 else 0 := by
  unfold dust_rate_step
  by_cases h1 : rec.dust ≤ a ∧ rec.dust ≠ 0
  · rw [if_pos h1]
    by_cases h2 : rec.loss_making ≤ a ∧ rec.loss_making ≠ 0
    · rw [if_pos h2]
      show bumpAt st.dust a 1 r = _
      unfold bumpAt
      by_cases hr : r = a
      · rw [if_pos hr, if_pos ⟨hr, h1.1, h1.2⟩]
      · rw [if_neg hr, if_neg (fun hcon => hr hcon.1)]
        omega
    · rw [if_neg h2]
      show bumpAt st.dust a 1 r = _
      unfold bumpAt
      by_cases hr : r = a
      · rw [if_pos hr, if_pos ⟨hr, h1.1, h1.2⟩]
      · rw [if_neg hr, if_neg (fun hcon => hr hcon.1)]
        omega
  · rw [if_neg h1]
    by_cases h2 : rec.loss_making ≤ a ∧ rec.loss_making ≠ 0
    · rw [if_pos h2]
      show st.dust r = _
      rw [if_neg (fun hcon => h1 ⟨hcon.2.1, hcon.2.2⟩)]
      omega
    · rw [if_neg h2]
      show st.dust r = _
      rw [if_neg (fun hcon => h1 ⟨hcon.2.1, hcon.2.2⟩)]
      omega

/-- The dust bucket at `r` after the whole fee-rate loop: incremented once
exactly when `r` is a configured rate at or above the non-zero crossover. -/
theorem foldl_rate_dust (rec : DustRecord) (rates : List Nat) :
    rates.Nodup → ∀ st r, (rates.foldl (dust_rate_step rec) st).dust r =
      st.dust r + if r ∈ rates ∧ rec.dust ≤ r ∧ rec.dust ≠ 0 then 1 else 0 := by
  induction rates with
  | nil =>
    intro _ st r
    simp
  | cons a l ih =>
    intro hnd st r
    rw [List.foldl_cons]
    rw [ih (List.Nodup.of_cons hnd) (dust_rate_step rec st a) r]
    rw [dust_rate_step_dust rec st a r]
    by_cases hr : r = a
    · subst hr
      have hnotin : r ∉ l := (List.nodup_cons.mp hnd).1
      by_cases hcond : rec.dust ≤ r ∧ rec.dust ≠ 0
      · rw [if_pos ⟨rfl, hcond.1, hcond.2⟩]
        rw [if_neg (fun hcon => hnotin hcon.1)]
        rw [if_pos ⟨List.mem_cons_self r l, hcond.1, hcond.2⟩]
      · rw [if_neg (fun hcon => hcond ⟨hcon.2.1, hcon.2.2⟩)]
        rw [if_neg (fun hcon => hcond ⟨hcon.2.1, hcon.2.2⟩)]
        rw [if_neg (fun hcon => hcond ⟨hcon.2.1, hcon.2.2⟩)]
    · rw [if_neg (fun hcon => hr hcon.1)]
      by_cases hmem : r ∈ l ∧ rec.dust ≤ r ∧ rec.dust ≠ 0
      · rw [if_pos hmem, if_pos ⟨List.mem_cons_of_mem a hmem.1, hmem.2⟩]
      · rw [if_neg hmem]
        rw [if_neg (fun hcon => hmem
          ⟨(List.mem_cons.mp hcon.1).resolve_left hr, hcon.2⟩)]

/-- The grand-total updates do not touch the dust table. -/
theorem accumulate_record_dust (rates : List Nat) (hnd : rates.Nodup)
    (st : DustState) (rec : DustRecord) (r : Nat) :
    (accumulate_record rates st rec).dust r =
      st.dust r + if r ∈ rates ∧ rec.dust ≤ r ∧ rec.dust ≠ 0 then 1 else 0 := by
  unfold accumulate_record
  exact foldl_rate_dust rec rates hnd st r

/-- C9: Accumulator monotonicity and upward closure: folding any stream of
records into any accumulator state never decreases any dust or loss-making
bucket or any grand total; and for a single record with a non-zero dust
crossover, the dust bucket for fee rate `r` is incremented exactly when `r`
is a configured rate at or above the crossover, and left unchanged
otherwise. -/
theorem accumulator_monotone_upward (rates : List Nat) (records : List DustRecord)
    (st : DustState) (rec : DustRecord) (r : Nat) :
    dustStateLE st (records.foldl (accumulate_record rates) st) ∧
    (rates.Nodup → rec.dust ≠ 0 →
      (((accumulate_record rates st rec).dust r = st.dust r + 1) ↔
        (r ∈ rates ∧ rec.dust ≤ r)) ∧
      (((accumulate_record rates st rec).dust r = st.dust r) ↔
        ¬ (r ∈ rates ∧ rec.dust ≤ r))) := by
  refine ⟨accumulate_stream_le rates records st, ?_⟩
  intro hnd hdz
  have h := accumulate_record_dust rates hnd st rec r
  constructor
  · constructor
    · intro heq
      by_contra hcon
      rw [if_neg (fun hc => hcon ⟨hc.1, hc.2.1⟩)] at h
      omega
    · intro hcond
      rw [if_pos ⟨hcond.1, hcond.2, hdz⟩] at h
      omega
  · constructor
    · intro heq hcond
      rw [if_pos ⟨hcond.1, hcond.2, hdz⟩] at h
      omega
    · intro hcond
      rw [if_neg (fun hc => hcond ⟨hc.1, hc.2.1⟩)] at h
      omega

/-- Witness for C9 with fee rates `[10, 20, 30]` and a record whose dust
crossover is 15: the bucket at 20 (above the crossover) is incremented, the
bucket at 10 (below it) is unchanged. -/
theorem accumulator_monotone_upward_witness :
    (accumulate_record (fee_rates 10 40 10) initDustState ⟨15, 0, 100, 7⟩).dust 20 =
      initDustState.dust 20 + 1 ∧
    (accumulate_record (fee_rates 10 40 10) initDustState ⟨15, 0, 100, 7⟩).dust 10 =
      initDustState.dust 10 := by
  have h20 := (accumulator_monotone_upward (fee_rates 10 40 10) [] initDustState
    ⟨15, 0, 100, 7⟩ 20).2 (by decide) (by decide)
  have h10 := (accumulator_monotone_upward (fee_rates 10 40 10) [] initDustState
    ⟨15, 0, 100, 7⟩ 10).2 (by decide) (by decide)
  exact ⟨h20.1.mpr ⟨by decide, by decide⟩, h10.2.mpr (by decide)⟩
